import Mathlib

/-
Verification of the blocked LU-factorization device kernels of the HPCC_FPGA
LINPACK benchmark and of its host-side benchmark harness.

Embedding conventions.  Global-memory buffers are total functions `ℕ → ℚ`
and register blocks are total functions `ℕ → ℕ → ℚ`: the element type
DEVICE_DATA_TYPE is embedded as the exact field of rationals, keeping every
arithmetic expression of the source intact (Lean's rational division is
total with `x / 0 = 0`, mirroring the fact that the source performs its
divisions unguarded, with no pivot check).  The compile-time constants are
parameters of the definitions:
  `G`   stands for GEMM_BLOCK  (`1 << REGISTER_BLOCK_LOG`, a power of two),
  `NB`  stands for BLOCK_SIZE / GEMM_BLOCK,
  `bpr` stands for blocks_per_row,
so BLOCK_SIZE = `NB * G`.  Where the source uses the bit trick
`x & (CONST - 1)` the embedding keeps the bitwise AND literally, and the
theorems carry the corresponding power-of-two hypothesis.  Loops that write
memory cell by cell are embedded as left folds of single-cell updates in
the iteration order of the source; loops that only combine private
registers are embedded as the functional form of their bodies.
-/

namespace LUFact

/-! ### Generic machinery: sequences of single-cell stores -/

/-- A store sequence: iterate `Function.update` over a list of
(address, value) pairs in program order.  This is the embedding of the
source's memory-write loops. -/
def writeAll (ps : List (ℕ × ℚ)) (a : ℕ → ℚ) : ℕ → ℚ :=
  ps.foldl (fun g p => Function.update g p.1 p.2) a

theorem writeAll_cons (p : ℕ × ℚ) (ps : List (ℕ × ℚ)) (a : ℕ → ℚ) :
    writeAll (p :: ps) a = writeAll ps (Function.update a p.1 p.2) := rfl

/-- An address no store touches keeps its previous value. -/
theorem writeAll_eq_of_not_mem (ps : List (ℕ × ℚ)) (a : ℕ → ℚ) (k : ℕ)
    (h : k ∉ ps.map Prod.fst) : writeAll ps a k = a k := by
  induction ps generalizing a with
  | nil => rfl
  | cons p ps ih =>
    simp only [List.map_cons, List.mem_cons] at h
    push_neg at h
    rw [writeAll_cons, ih _ h.2, Function.update_noteq h.1]

/-- If all stored addresses are distinct, a stored address holds the value
written to it. -/
theorem writeAll_eq_of_mem (ps : List (ℕ × ℚ)) (a : ℕ → ℚ) (p : ℕ × ℚ)
    (hnd : (ps.map Prod.fst).Nodup) (hm : p ∈ ps) : writeAll ps a p.1 = p.2 := by
  induction ps generalizing a with
  | nil => cases hm
  | cons q ps ih =>
    simp only [List.map_cons, List.nodup_cons] at hnd
    rcases List.mem_cons.mp hm with h | h
    · subst h
      rw [writeAll_cons, writeAll_eq_of_not_mem _ _ _ hnd.1, Function.update_same]
    · rw [writeAll_cons]
      exact ih _ hnd.2 h

/-- The bit trick `x & (2^n - 1) = x % 2^n` used by the kernels'
index decompositions. -/
theorem and_mask_eq_mod (x n : ℕ) : x &&& (2 ^ n - 1) = x % 2 ^ n := by
  apply Nat.eq_of_testBit_eq
  intro i
  simp [Nat.testBit_land, Nat.testBit_mod_two_pow, Nat.testBit_two_pow_sub_one,
    Bool.and_comm]

/-! ### The diagonal micro-step `lu_block` -/

/-- `lu_block` from the device source: one micro-step of the in-register
LU factorization of a GEMM_BLOCK x GEMM_BLOCK block, without pivoting.
`line` is row `step` of the input, `inv_scale_a = -1.0 / line[step]` is the
negated reciprocal pivot, the row is scaled right of the diagonal, and all
rows `j` are written back: row `step` becomes the scaled line, and entries
strictly below and right of the step get `A[j][i] + line[i] * A[j][step]`.
Each source loop writes exactly this formula at every index pair of the
block, so the block is embedded as a total function on indices. -/
def lu_block (A : ℕ → ℕ → ℚ) (step : ℕ) : ℕ → ℕ → ℚ :=
  let line : ℕ → ℚ := fun i => A step i
  let inv_scale_a : ℚ := -1 / line step
  let scaled : ℕ → ℚ := fun i => if step < i then line i * inv_scale_a else line i
  let line2 : ℕ → ℚ := fun i => if i = step then inv_scale_a else scaled i
  fun j i =>
    if j ≠ step then
      (if step < i ∧ step < j then A j i + line2 i * A j step else A j i)
    else line2 i

/-- C1: one `lu_block` micro-step at step `s` maps the input block `A` to
the output block with: the pivot replaced by its negated reciprocal
`-1 / A[s][s]`; entries of row `s` right of the pivot scaled by that value
and entries left of it copied; and every other row updated by
`A[j][i] + A_out[s][i] * A[j][s]` exactly when both `i > s` and `j > s`,
all other entries copied unchanged. -/
theorem lu_block_micro_step (A : ℕ → ℕ → ℚ) (G s i j : ℕ)
    (hs : s < G) (hi : i < G) (hj : j < G) :
    lu_block A s s s = -1 / A s s ∧
    (s < i → lu_block A s s i = A s i * (-1 / A s s)) ∧
    (i < s → lu_block A s s i = A s i) ∧
    (j ≠ s → s < i → s < j → lu_block A s j i = A j i + lu_block A s s i * A j s) ∧
    (j ≠ s → ¬(s < i ∧ s < j) → lu_block A s j i = A j i) := by
  refine ⟨?_, ?_, ?_, ?_, ?_⟩
  · simp [lu_block]
  · intro h
    have hne : i ≠ s := by omega
    simp [lu_block, h, hne]
  · intro h
    have hne : i ≠ s := by omega
    have hns : ¬(s < i) := by omega
    simp [lu_block, hne, hns]
  · intro hjs hsi hsj
    have hne : i ≠ s := by omega
    simp [lu_block, hjs, hsi, hsj, hne]
  · intro hjs hn
    simp only [lu_block]
    rw [if_pos hjs, if_neg hn]

/-- C1 witness: the pivot formula evaluated at a concrete 2x2 block. -/
theorem lu_block_micro_step_witness :
    lu_block (fun x y => if x = y then (2 : ℚ) else 1) 1 1 1 = -1 / 2 := by
  have h := (lu_block_micro_step (fun x y => if x = y then (2 : ℚ) else 1) 2 1 0 1
    (by omega) (by omega) (by omega)).1
  simpa using h

/-- C7: the diagonal factorizer is total and unguarded.  For every input
block, including one whose pivot `A[s][s]` is zero, `lu_block` performs the
division `-1 / A[s][s]` (total rational division, the embedding of the
source's unguarded floating-point division) and returns a block whose pivot
entry is that quotient.  No hypothesis on the pivot is needed: there is no
pivot check and no error branch in the factorization path. -/
theorem lu_block_total_unguarded (A : ℕ → ℕ → ℚ) (s : ℕ) :
    lu_block A s s s = -1 / A s s ∧
    (A s s = 0 → lu_block A s s s = -1 / 0) := by
  constructor
  · simp [lu_block]
  · intro h
    simp [lu_block, h]

/-- C7 witness: a zero pivot flows through the unguarded division. -/
theorem lu_block_total_unguarded_witness :
    lu_block (fun _ _ => 0) 0 0 0 = -1 / 0 :=
  (lu_block_total_unguarded (fun _ _ => 0) 0).2 rfl

/-! ### Iterating the micro-step: the diagonal micro-block of kernel `lu` -/

/-- Iterating the `lu_block` micro-step with steps `s = 0, 1, ..., n-1`. -/
def luIter (n : ℕ) (A : ℕ → ℕ → ℚ) : ℕ → ℕ → ℚ :=
  (List.range n).foldl (fun M s => lu_block M s) A

/-- The micro-step sequence kernel `lu` applies to the k-th diagonal
micro-block of a block: for `gk = k*G .. k*G + G - 1` the kernel calls
`lu_block` with step `kk = gk & (G - 1)` and writes the result back to
`a_buffer[k][k]`; no other statement of the kernel writes that micro-block
once `gk` has reached `k*G`. -/
def luDiagCommit (G k : ℕ) (A : ℕ → ℕ → ℚ) : ℕ → ℕ → ℚ :=
  (List.range G).foldl (fun M t => lu_block M ((k * G + t) &&& (G - 1))) A

theorem luIter_succ (n : ℕ) (A : ℕ → ℕ → ℚ) :
    luIter (n + 1) A = lu_block (luIter n A) n := by
  unfold luIter
  rw [List.range_succ, List.foldl_append]
  rfl

theorem luDiagCommit_eq_luIter (g k : ℕ) (A : ℕ → ℕ → ℚ) :
    luDiagCommit (2 ^ g) k A = luIter (2 ^ g) A := by
  unfold luDiagCommit luIter
  apply List.foldl_ext
  intro M t ht
  have ht2 : t < 2 ^ g := List.mem_range.mp ht
  have : (k * 2 ^ g + t) &&& (2 ^ g - 1) = t := by
    rw [and_mask_eq_mod, mul_comm, Nat.mul_add_mod, Nat.mod_eq_of_lt ht2]
  rw [this]

/-- The final micro-step `s = G-1` only replaces the last diagonal entry by
its negated reciprocal; inside the block everything else is copied. -/
theorem lu_block_last_step (M : ℕ → ℕ → ℚ) (G i j : ℕ) (hG : 0 < G)
    (hi : i < G) (hj : j < G) :
    lu_block M (G - 1) j i =
      if i = G - 1 ∧ j = G - 1 then -1 / M (G - 1) (G - 1) else M j i := by
  have hi' : ¬(G - 1 < i) := by omega
  have hj' : ¬(G - 1 < j) := by omega
  by_cases hjs : j = G - 1
  · by_cases his : i = G - 1
    · simp [lu_block, hjs, his]
    · simp [lu_block, hjs, his, hi']
  · have hcond : ¬(G - 1 < i ∧ G - 1 < j) := fun h => hj' h.2
    have hrhs : ¬(i = G - 1 ∧ j = G - 1) := fun h => hjs h.2
    simp only [lu_block]
    rw [if_pos hjs, if_neg hcond, if_neg hrhs]

/-- C3 counterexample: on the concrete 2x2 block `[[2,1],[1,2]]` with
GEMM_BLOCK = 2, the result after GEMM_BLOCK - 1 micro-steps differs at the
last diagonal entry from the micro-block the `lu` kernel commits, which
also executes the micro-step `s = GEMM_BLOCK - 1` and thereby replaces that
entry by its negated reciprocal (3/2 versus -2/3). -/
theorem luDiagCommit_ne_luIter_pred :
    luDiagCommit 2 0 (fun x y => if x = y then (2 : ℚ) else 1) 1 1 ≠
      luIter (2 - 1) (fun x y => if x = y then (2 : ℚ) else 1) 1 1 := by
  norm_num [luDiagCommit, luIter, lu_block, List.range_succ]

/-- C3 amended: the `lu` kernel executes all GEMM_BLOCK micro-steps on
each diagonal micro-block.  The committed micro-block agrees with the
(GEMM_BLOCK - 1)-step iteration everywhere except the last diagonal entry,
which the additional micro-step `s = GEMM_BLOCK - 1` replaces by its
negated reciprocal; the extra step changes nothing else. -/
theorem luDiagCommit_eq_iter_pred_update (g G k i j : ℕ) (A : ℕ → ℕ → ℚ)
    (hG : G = 2 ^ g) (hi : i < G) (hj : j < G) :
    luDiagCommit G k A j i =
      if i = G - 1 ∧ j = G - 1 then -1 / luIter (G - 1) A (G - 1) (G - 1)
      else luIter (G - 1) A j i := by
  subst hG
  rw [luDiagCommit_eq_luIter]
  obtain ⟨n, hn⟩ : ∃ n, 2 ^ g = n + 1 :=
    ⟨2 ^ g - 1, by have h2 : 0 < 2 ^ g := Nat.pow_pos (by omega); omega⟩
  rw [hn] at hi hj ⊢
  simp only [Nat.add_sub_cancel]
  rw [luIter_succ]
  exact lu_block_last_step (luIter n A) (n + 1) i j (by omega) hi hj

/-- C3 amended witness: the commit relation evaluated at GEMM_BLOCK = 2,
k = 1, on a concrete block, at the last diagonal entry. -/
theorem luDiagCommit_eq_iter_pred_update_witness :
    luDiagCommit 2 1 (fun x y => if x = y then (2 : ℚ) else 1) 1 1 =
      -1 / luIter 1 (fun x y => if x = y then (2 : ℚ) else 1) 1 1 := by
  have h := luDiagCommit_eq_iter_pred_update 1 2 1 1 1
    (fun x y => if x = y then (2 : ℚ) else 1) rfl (by omega) (by omega)
  simpa using h

/-! ### The generic block updater `update_block` and the `lu` pipeline -/

/-- `update_block` from the device source: updates one GEMM_BLOCK x
GEMM_BLOCK block for one micro-row.  Operation types: `0` = top row block
(triangular update), `1` = left column block (transposed in and out),
`2` = inner block (plain multiply-accumulate).  The input block is
transposed into `current_block` for the left operation; `scale_row` is the
`top` input for inner blocks and the current row (times the pivot
reciprocal for top blocks) otherwise; rows before `current_row` are
restored for the triangular operations. -/
def update_block (a : ℕ → ℕ → ℚ) (top left_or_lu : ℕ → ℚ)
    (current_row operation_type : ℕ) : ℕ → ℕ → ℚ :=
  let current_block : ℕ → ℕ → ℚ :=
    fun ii jj => if operation_type = 1 then a jj ii else a ii jj
  let scale_row : ℕ → ℚ := fun jj =>
    if operation_type = 2 then top jj
    else if operation_type = 0 then current_block current_row jj * left_or_lu current_row
    else current_block current_row jj
  let tmp : ℕ → ℕ → ℚ :=
    fun ii jj => current_block ii jj + scale_row jj * left_or_lu ii
  let tmp2 : ℕ → ℕ → ℚ :=
    fun ii jj =>
      if operation_type ≠ 2 then
        (if ii = current_row then scale_row jj
         else if ii < current_row then current_block ii jj
         else tmp ii jj)
      else tmp ii jj
  fun ii jj => if operation_type = 1 then tmp2 jj ii else tmp2 ii jj

/-- Index computation of the update pipeline in kernel `lu`: for pipeline
counter `ttj` at micro-step row `k` the kernel computes
`j = ttj & (BLOCK_SIZE/GEMM_BLOCK - 1)`,
`ti = (ttj + k * BLOCK_SIZE/GEMM_BLOCK) / (BLOCK_SIZE/GEMM_BLOCK)`,
`i = (j == k) ? ti + 1 : ti` and passes operation type
`(i == k) ? 0 : ((j == k) ? 1 : 2)` to `update_block`. -/
def luOpType (NB k ttj : ℕ) : ℕ :=
  let j := ttj &&& (NB - 1)
  let ti := (ttj + k * NB) / NB
  let i := if j = k then ti + 1 else ti
  if i = k then 0 else if j = k then 1 else 2

/-- C9: `top_input` is initialized only for pipeline iterations with
`ttj ≥ BLOCK_SIZE/GEMM_BLOCK`, but the kernel never uses an uninitialized
value: `update_block` ignores its `top` argument whenever the operation
type differs from 2 (inner update), and every pipeline iteration with
`ttj < BLOCK_SIZE/GEMM_BLOCK` computes operation type 0 or 1, so `top` is
read only by calls that receive an initialized buffer. -/
theorem update_block_top_read_safe (m NB k ttj current_row : ℕ)
    (a : ℕ → ℕ → ℚ) (top1 top2 left_or_lu : ℕ → ℚ) (op ii jj : ℕ)
    (hNB : NB = 2 ^ m) (hop : op ≠ 2) (httj : ttj < NB) :
    update_block a top1 left_or_lu current_row op ii jj =
      update_block a top2 left_or_lu current_row op ii jj ∧
    (luOpType NB k ttj = 0 ∨ luOpType NB k ttj = 1) := by
  constructor
  · simp [update_block, hop]
  · have hNBpos : 0 < NB := by omega
    have hj : ttj &&& (NB - 1) = ttj := by
      rw [hNB, and_mask_eq_mod, Nat.mod_eq_of_lt (hNB ▸ httj)]
    have hti : (ttj + k * NB) / NB = k := by
      rw [mul_comm, Nat.add_mul_div_left _ _ hNBpos, Nat.div_eq_of_lt httj,
        Nat.zero_add]
    simp only [luOpType, hj, hti]
    by_cases hjk : ttj = k
    · right
      simp [hjk]
    · left
      simp [hjk]

/-- C9 witness: the no-read property and the operation-type bound evaluated
at a concrete left-block pipeline iteration. -/
theorem update_block_top_read_safe_witness :
    update_block (fun _ _ => (1 : ℚ)) (fun _ => 5) (fun _ => 1) 0 1 0 0 =
      update_block (fun _ _ => (1 : ℚ)) (fun _ => 7) (fun _ => 1) 0 1 0 0 ∧
    (luOpType 2 0 1 = 0 ∨ luOpType 2 0 1 = 1) :=
  update_block_top_read_safe 1 2 0 1 0 (fun _ _ => 1) (fun _ => 5) (fun _ => 7)
    (fun _ => 1) 1 0 0 rfl (by omega) (by omega)

/-! ### Tiled addressing and the block load/store loops -/

/-- Global-memory address of element (r, c) of block
(block_row, block_col), as computed by all four kernels:
`a[block_col * BLOCK_SIZE + (block_row * BLOCK_SIZE + r) * BLOCK_SIZE * blocks_per_row + c]`
with BLOCK_SIZE = NB * G. -/
def blockAddr (G NB bpr block_col block_row r c : ℕ) : ℕ :=
  block_col * (NB * G) + (block_row * (NB * G) + r) * ((NB * G) * bpr) + c

/-- The load loop shared by the kernels: local buffer entry
`a_buffer[i][j][ii][jj]` holds matrix element
(i * GEMM_BLOCK + ii, j * GEMM_BLOCK + jj) of the addressed block. -/
def loadBlock (G NB bpr block_col block_row : ℕ) (a : ℕ → ℚ) :
    ℕ → ℕ → ℕ → ℕ → ℚ :=
  fun i j ii jj => a (blockAddr G NB bpr block_col block_row (i * G + ii) (j * G + jj))

/-- Decoded loop index `i` of the flattened store counter `t`
(`i` iterates outermost over micro-row blocks). -/
def decI (G NB t : ℕ) : ℕ := t / (G * (NB * G))

/-- Decoded loop index `ii` (row inside a micro-tile). -/
def decII (G NB t : ℕ) : ℕ := t / (NB * G) % G

/-- Decoded loop index `j` (micro-column block). -/
def decJ (G NB t : ℕ) : ℕ := t / G % NB

/-- Decoded loop index `jj` (column inside a micro-tile, innermost). -/
def decJJ (G t : ℕ) : ℕ := t % G

/-- Row `i * GEMM_BLOCK + ii` addressed by counter `t`. -/
def decR (G NB t : ℕ) : ℕ := decI G NB t * G + decII G NB t

/-- Column `j * GEMM_BLOCK + jj` addressed by counter `t`. -/
def decC (G NB t : ℕ) : ℕ := decJ G NB t * G + decJJ G t

/-- The store loop writing the local buffer back to the block region of the
matrix buffer `a`, iterating i, ii, j, jj in source order (flattened
counter `t`). -/
def storeA (G NB bpr block_col block_row : ℕ) (buf : ℕ → ℕ → ℕ → ℕ → ℚ)
    (a : ℕ → ℚ) : ℕ → ℚ :=
  writeAll
    ((List.range (NB * G * (NB * G))).map fun t =>
      (blockAddr G NB bpr block_col block_row (decR G NB t) (decC G NB t),
        buf (decI G NB t) (decJ G NB t) (decII G NB t) (decJJ G t)))
    a

/-- The store loop writing the local buffer to a dense
BLOCK_SIZE x BLOCK_SIZE output buffer
(`out[(i*GEMM_BLOCK + ii) * BLOCK_SIZE + j*GEMM_BLOCK + jj] = a_buffer[i][j][ii][jj]`,
used for `a_block` and `top_block`). -/
def storeFlat (G NB : ℕ) (buf : ℕ → ℕ → ℕ → ℕ → ℚ) (out : ℕ → ℚ) : ℕ → ℚ :=
  writeAll
    ((List.range (NB * G * (NB * G))).map fun t =>
      (decR G NB t * (NB * G) + decC G NB t,
        buf (decI G NB t) (decJ G NB t) (decII G NB t) (decJJ G t)))
    out

/-- The transposed store loop
(`out[(i*GEMM_BLOCK + ii) * BLOCK_SIZE + j*GEMM_BLOCK + jj] = a_buffer[j][i][jj][ii]`,
used for `a_block_trans` and `left_block`). -/
def storeFlatTrans (G NB : ℕ) (buf : ℕ → ℕ → ℕ → ℕ → ℚ) (out : ℕ → ℚ) :
    ℕ → ℚ :=
  writeAll
    ((List.range (NB * G * (NB * G))).map fun t =>
      (decR G NB t * (NB * G) + decC G NB t,
        buf (decJ G NB t) (decI G NB t) (decJJ G t) (decII G NB t)))
    out

/-! ### The row propagator `top_update` -/

/-- One iteration of the `gk` loop of kernel `top_update` on the local
block buffer; `luT` is `lu_global_buffer_transposed`.  Phase one scales row
`kk` of micro-row-block `k` by `current_scale` (the pivot entry loaded from
the LU buffer) and records the scaled chunks (`current_row`) and the LU
column chunks (`current_lu_col`, zeroed at `col = 0, i ≤ kk` by the
source's `(col > 0 || i > kk)` guard and only ever read for
`col < BLOCK_SIZE/GEMM_BLOCK - k`); phase two adds
`current_lu_col[row][i] * current_row[curr_col][j]` to every entry of
micro-row-blocks `k ..  BLOCK_SIZE/GEMM_BLOCK - 1`. -/
def topUpdateStep (G NB : ℕ) (luT : ℕ → ℚ) (gk : ℕ)
    (buf : ℕ → ℕ → ℕ → ℕ → ℚ) : ℕ → ℕ → ℕ → ℕ → ℚ :=
  let k := gk / G
  let kk := gk &&& (G - 1)
  let current_scale := luT (gk * (NB * G) + k * G + kk)
  let current_lu_col : ℕ → ℕ → ℚ := fun col i =>
    if col < NB - k then
      (if 0 < col ∨ kk < i then luT (gk * (NB * G) + (col + k) * G + i) else 0)
    else 0
  let current_row : ℕ → ℕ → ℚ := fun col i => buf k col kk i * current_scale
  fun p q ii jj =>
    (if p = k ∧ ii = kk ∧ q < NB ∧ jj < G then current_row q jj
     else buf p q ii jj) +
    (if k ≤ p ∧ p < NB ∧ q < NB ∧ ii < G ∧ jj < G then
      current_lu_col (p - k) ii * current_row q jj
     else 0)

/-- Kernel `top_update`: load the addressed block, run the `gk` loop over
the whole BLOCK_SIZE, store the block back to `a` and a dense copy to
`top_block`.  The `is_first_block` argument is part of the kernel signature
but unused by its body. -/
def top_update (G NB bpr : ℕ) (a top_block luT : ℕ → ℚ)
    (is_first_block block_col block_row : ℕ) : (ℕ → ℚ) × (ℕ → ℚ) :=
  let buf0 := loadBlock G NB bpr block_col block_row a
  let buf := (List.range (NB * G)).foldl
    (fun b gk => topUpdateStep G NB luT gk b) buf0
  (storeA G NB bpr block_col block_row buf a, storeFlat G NB buf top_block)

/-- C4: at every micro-step `gk` of `top_update` (with
`k = gk / GEMM_BLOCK`), only entries in micro-block rows of index ≥ k of
the local block buffer are modified; every entry in a micro-block row of
index < k keeps the value it had before the micro-step. -/
theorem top_update_step_frame (G NB gk p q ii jj : ℕ) (luT : ℕ → ℚ)
    (buf : ℕ → ℕ → ℕ → ℕ → ℚ) (hp : p < gk / G) :
    topUpdateStep G NB luT gk buf p q ii jj = buf p q ii jj := by
  have h1 : ¬(p = gk / G ∧ ii = (gk &&& (G - 1)) ∧ q < NB ∧ jj < G) :=
    fun h => absurd h.1 (Nat.ne_of_lt hp)
  have h2 : ¬(gk / G ≤ p ∧ p < NB ∧ q < NB ∧ ii < G ∧ jj < G) :=
    fun h => absurd h.1 (by omega)
  simp only [topUpdateStep]
  rw [if_neg h1, if_neg h2, add_zero]

/-- C4 witness: a row above the current micro-step row is untouched, at a
concrete configuration. -/
theorem top_update_step_frame_witness :
    topUpdateStep 2 2 (fun _ => 1) 2 (fun _ _ _ _ => (3 : ℚ)) 0 0 0 0 = 3 := by
  have h := top_update_step_frame 2 2 2 0 0 0 0 (fun _ => 1)
    (fun _ _ _ _ => (3 : ℚ)) (by omega)
  simpa using h

/-! ### The column propagator `left_update` -/

/-- One iteration of the `gk` loop of kernel `left_update` on the local
block buffer; `lu_buf` is `lu_global_buffer`.  Phase one snapshots column
`kk` of micro-column-block `k` (`current_col`) and the LU row chunks
(`current_lu_row`, zeroed at `col = 0, i ≤ kk` and only read for
`col < BLOCK_SIZE/GEMM_BLOCK - k`); phase two adds
`current_lu_row[curr_col][j] * current_col[row][i]` to every entry of
micro-column-blocks `k .. BLOCK_SIZE/GEMM_BLOCK - 1`. -/
def leftUpdateStep (G NB : ℕ) (lu_buf : ℕ → ℚ) (gk : ℕ)
    (buf : ℕ → ℕ → ℕ → ℕ → ℚ) : ℕ → ℕ → ℕ → ℕ → ℚ :=
  let k := gk / G
  let kk := gk &&& (G - 1)
  let current_col : ℕ → ℕ → ℚ := fun col i => buf col k i kk
  let current_lu_row : ℕ → ℕ → ℚ := fun col i =>
    if col < NB - k then
      (if 0 < col ∨ kk < i then lu_buf (gk * (NB * G) + (col + k) * G + i) else 0)
    else 0
  fun p q ii jj =>
    buf p q ii jj +
      (if p < NB ∧ k ≤ q ∧ q < NB ∧ ii < G ∧ jj < G then
        current_lu_row (q - k) jj * current_col p ii
       else 0)

/-- Kernel `left_update`: load the addressed block, run the `gk` loop over
the whole BLOCK_SIZE, store the block back to `a` and a transposed dense
copy to `left_block`.  The `is_first_block` argument is part of the kernel
signature but unused by its body. -/
def left_update (G NB bpr : ℕ) (a left_block lu_buf : ℕ → ℚ)
    (is_first_block block_col block_row : ℕ) : (ℕ → ℚ) × (ℕ → ℚ) :=
  let buf0 := loadBlock G NB bpr block_col block_row a
  let buf := (List.range (NB * G)).foldl
    (fun b gk => leftUpdateStep G NB lu_buf gk b) buf0
  (storeA G NB bpr block_col block_row buf a,
   storeFlatTrans G NB buf left_block)

/-- C10: the outputs of `top_update` and `left_update` do not depend on the
`is_first_block` argument: with everything else fixed, two executions that
differ only in that argument write identical values to the matrix buffer
`a` and to the `top_block` (respectively `left_block`) output buffer. -/
theorem kernels_ignore_is_first_block (G NB bpr : ℕ)
    (a top_block left_block luT lu_buf : ℕ → ℚ)
    (ifb1 ifb2 block_col block_row : ℕ) :
    top_update G NB bpr a top_block luT ifb1 block_col block_row =
      top_update G NB bpr a top_block luT ifb2 block_col block_row ∧
    left_update G NB bpr a left_block lu_buf ifb1 block_col block_row =
      left_update G NB bpr a left_block lu_buf ifb2 block_col block_row :=
  ⟨rfl, rfl⟩

/-! ### Arithmetic of the flattened store counter -/

theorem div_mul_add (M x r : ℕ) (hM : 0 < M) (hr : r < M) :
    (M * x + r) / M = x := by
  rw [Nat.mul_add_div hM, Nat.div_eq_of_lt hr, Nat.add_zero]

theorem mod_mul_add (M x r : ℕ) (hr : r < M) : (M * x + r) % M = r := by
  rw [Nat.mul_add_mod, Nat.mod_eq_of_lt hr]

theorem mul_add_inj (M r1 c1 r2 c2 : ℕ) (h1 : c1 < M) (h2 : c2 < M)
    (h : r1 * M + c1 = r2 * M + c2) : r1 = r2 ∧ c1 = c2 := by
  have hM : 0 < M := by omega
  have d1 : (r1 * M + c1) / M = r1 := by
    rw [mul_comm r1 M]
    exact div_mul_add M r1 c1 hM h1
  have d2 : (r2 * M + c2) / M = r2 := by
    rw [mul_comm r2 M]
    exact div_mul_add M r2 c2 hM h2
  have m1 : (r1 * M + c1) % M = c1 := by
    rw [mul_comm r1 M]
    exact mod_mul_add M r1 c1 h1
  have m2 : (r2 * M + c2) % M = c2 := by
    rw [mul_comm r2 M]
    exact mod_mul_add M r2 c2 h2
  constructor
  · rw [← d1, ← d2, h]
  · rw [← m1, ← m2, h]

/-- Recomposing the decoded row and column indices yields the counter
back: the flat store addresses coincide with the store counter. -/
theorem decR_decC_recompose (G NB t : ℕ) :
    decR G NB t * (NB * G) + decC G NB t = t := by
  unfold decR decC decI decII decJ decJJ
  have h1 : t / (G * (NB * G)) = t / (NB * G) / G := by
    rw [Nat.div_div_eq_div_mul, mul_comm (NB * G) G]
  have h2 : t / (NB * G) / G * G + t / (NB * G) % G = t / (NB * G) := by
    rw [mul_comm (t / (NB * G) / G) G]
    exact Nat.div_add_mod (t / (NB * G)) G
  have h3 : t / G % NB = t % (NB * G) / G := by
    rw [mul_comm NB G, Nat.mod_mul_right_div_self]
  have h4 : t % G = t % (NB * G) % G := by
    rw [Nat.mod_mod_of_dvd t ⟨NB, mul_comm NB G⟩]
  rw [h1, h2, h3, h4]
  have h5 : t % (NB * G) / G * G + t % (NB * G) % G = t % (NB * G) := by
    rw [mul_comm (t % (NB * G) / G) G]
    exact Nat.div_add_mod (t % (NB * G)) G
  rw [h5, mul_comm (t / (NB * G)) (NB * G)]
  exact Nat.div_add_mod t (NB * G)

/-- The flattened counter of in-range loop indices. -/
def tIdx (G NB i ii j jj : ℕ) : ℕ := ((i * G + ii) * NB + j) * G + jj

theorem tIdx_eq (G NB i ii j jj : ℕ) :
    tIdx G NB i ii j jj = (i * G + ii) * (NB * G) + (j * G + jj) := by
  unfold tIdx
  ring

theorem tIdx_lt (G NB i ii j jj : ℕ) (hi : i < NB) (hii : ii < G)
    (hj : j < NB) (hjj : jj < G) : tIdx G NB i ii j jj < NB * G * (NB * G) := by
  have hr : i * G + ii < NB * G := by
    calc i * G + ii < i * G + G := by omega
      _ = (i + 1) * G := by ring
      _ ≤ NB * G := Nat.mul_le_mul_right G (by omega)
  have hc : j * G + jj < NB * G := by
    calc j * G + jj < j * G + G := by omega
      _ = (j + 1) * G := by ring
      _ ≤ NB * G := Nat.mul_le_mul_right G (by omega)
  rw [tIdx_eq]
  calc (i * G + ii) * (NB * G) + (j * G + jj)
      < (i * G + ii) * (NB * G) + NB * G := by omega
    _ = (i * G + ii + 1) * (NB * G) := by ring
    _ ≤ NB * G * (NB * G) := Nat.mul_le_mul_right (NB * G) (by omega)

/-- Decoding the flattened counter of in-range loop indices recovers
them. -/
theorem tIdx_decode (G NB i ii j jj : ℕ) (hii : ii < G) (hj : j < NB)
    (hjj : jj < G) :
    decI G NB (tIdx G NB i ii j jj) = i ∧
    decII G NB (tIdx G NB i ii j jj) = ii ∧
    decJ G NB (tIdx G NB i ii j jj) = j ∧
    decJJ G (tIdx G NB i ii j jj) = jj := by
  have hG : 0 < G := by omega
  have hNB : 0 < NB := by omega
  have hcol : j * G + jj < NB * G := by
    calc j * G + jj < j * G + G := by omega
      _ = (j + 1) * G := by ring
      _ ≤ NB * G := Nat.mul_le_mul_right G (by omega)
  refine ⟨?_, ?_, ?_, ?_⟩
  · have hrest : ii * (NB * G) + (j * G + jj) < G * (NB * G) := by
      calc ii * (NB * G) + (j * G + jj) < ii * (NB * G) + NB * G := by omega
        _ = (ii + 1) * (NB * G) := by ring
        _ ≤ G * (NB * G) := Nat.mul_le_mul_right (NB * G) (by omega)
    have ht : tIdx G NB i ii j jj =
        G * (NB * G) * i + (ii * (NB * G) + (j * G + jj)) := by
      unfold tIdx
      ring
    unfold decI
    rw [ht, div_mul_add _ _ _ (Nat.mul_pos hG (Nat.mul_pos hNB hG)) hrest]
  · have ht : tIdx G NB i ii j jj =
        NB * G * (i * G + ii) + (j * G + jj) := by
      unfold tIdx
      ring
    unfold decII
    rw [ht, div_mul_add _ _ _ (Nat.mul_pos hNB hG) hcol,
      show i * G + ii = G * i + ii by ring, mod_mul_add G i ii hii]
  · have ht : tIdx G NB i ii j jj = G * ((i * G + ii) * NB + j) + jj := by
      unfold tIdx
      ring
    unfold decJ
    rw [ht, div_mul_add _ _ _ hG hjj,
      show (i * G + ii) * NB + j = NB * (i * G + ii) + j by ring,
      mod_mul_add NB _ _ hj]
  · have ht : tIdx G NB i ii j jj = G * ((i * G + ii) * NB + j) + jj := by
      unfold tIdx
      ring
    unfold decJJ
    rw [ht, mod_mul_add G _ _ hjj]

/-- The flat store writes address `t` at counter `t`: its key list is the
counter range itself. -/
theorem storeFlat_lookup (G NB i ii j jj : ℕ) (buf : ℕ → ℕ → ℕ → ℕ → ℚ)
    (out : ℕ → ℚ) (hi : i < NB) (hii : ii < G) (hj : j < NB) (hjj : jj < G) :
    storeFlat G NB buf out ((i * G + ii) * (NB * G) + (j * G + jj)) =
      buf i j ii jj := by
  obtain ⟨e1, e2, e3, e4⟩ := tIdx_decode G NB i ii j jj hii hj hjj
  have hkey : decR G NB (tIdx G NB i ii j jj) * (NB * G) +
      decC G NB (tIdx G NB i ii j jj) = (i * G + ii) * (NB * G) + (j * G + jj) := by
    rw [decR_decC_recompose, tIdx_eq]
  have hmem : ((i * G + ii) * (NB * G) + (j * G + jj), buf i j ii jj) ∈
      (List.range (NB * G * (NB * G))).map fun t =>
        (decR G NB t * (NB * G) + decC G NB t,
          buf (decI G NB t) (decJ G NB t) (decII G NB t) (decJJ G t)) := by
    refine List.mem_map.mpr ⟨tIdx G NB i ii j jj,
      List.mem_range.mpr (tIdx_lt G NB i ii j jj hi hii hj hjj), ?_⟩
    rw [hkey, e1, e2, e3, e4]
  have hnd : ((((List.range (NB * G * (NB * G))).map fun t =>
      (decR G NB t * (NB * G) + decC G NB t,
        buf (decI G NB t) (decJ G NB t) (decII G NB t) (decJJ G t))).map
        Prod.fst)).Nodup := by
    rw [List.map_map]
    have hc : ∀ t ∈ List.range (NB * G * (NB * G)),
        (Prod.fst ∘ fun t =>
          (decR G NB t * (NB * G) + decC G NB t,
            buf (decI G NB t) (decJ G NB t) (decII G NB t) (decJJ G t))) t =
          id t := by
      intro t _
      exact decR_decC_recompose G NB t
    rw [List.map_congr_left hc, List.map_id]
    exact List.nodup_range _
  exact writeAll_eq_of_mem _ out _ hnd hmem

/-- The transposed flat store writes `buf j i jj ii` at the same
addresses. -/
theorem storeFlatTrans_lookup (G NB i ii j jj : ℕ) (buf : ℕ → ℕ → ℕ → ℕ → ℚ)
    (out : ℕ → ℚ) (hi : i < NB) (hii : ii < G) (hj : j < NB) (hjj : jj < G) :
    storeFlatTrans G NB buf out ((i * G + ii) * (NB * G) + (j * G + jj)) =
      buf j i jj ii := by
  obtain ⟨e1, e2, e3, e4⟩ := tIdx_decode G NB i ii j jj hii hj hjj
  have hkey : decR G NB (tIdx G NB i ii j jj) * (NB * G) +
      decC G NB (tIdx G NB i ii j jj) = (i * G + ii) * (NB * G) + (j * G + jj) := by
    rw [decR_decC_recompose, tIdx_eq]
  have hmem : ((i * G + ii) * (NB * G) + (j * G + jj), buf j i jj ii) ∈
      (List.range (NB * G * (NB * G))).map fun t =>
        (decR G NB t * (NB * G) + decC G NB t,
          buf (decJ G NB t) (decI G NB t) (decJJ G t) (decII G NB t)) := by
    refine List.mem_map.mpr ⟨tIdx G NB i ii j jj,
      List.mem_range.mpr (tIdx_lt G NB i ii j jj hi hii hj hjj), ?_⟩
    rw [hkey, e1, e2, e3, e4]
  have hnd : ((((List.range (NB * G * (NB * G))).map fun t =>
      (decR G NB t * (NB * G) + decC G NB t,
        buf (decJ G NB t) (decI G NB t) (decJJ G t) (decII G NB t))).map
        Prod.fst)).Nodup := by
    rw [List.map_map]
    have hc : ∀ t ∈ List.range (NB * G * (NB * G)),
        (Prod.fst ∘ fun t =>
          (decR G NB t * (NB * G) + decC G NB t,
            buf (decJ G NB t) (decI G NB t) (decJJ G t) (decII G NB t))) t =
          id t := by
      intro t _
      exact decR_decC_recompose G NB t
    rw [List.map_congr_left hc, List.map_id]
    exact List.nodup_range _
  exact writeAll_eq_of_mem _ out _ hnd hmem

/-- The block-region address decomposes as a constant plus
`r * (BLOCK_SIZE * blocks_per_row) + c`. -/
theorem blockAddr_decompose (G NB bpr bc br r c : ℕ) :
    blockAddr G NB bpr bc br r c =
      (bc * (NB * G) + br * (NB * G) * (NB * G * bpr)) +
        (r * (NB * G * bpr) + c) := by
  unfold blockAddr
  ring

/-- The keys of the block-region store are injective in the counter. -/
theorem storeA_key_inj (G NB bpr bc br t1 t2 : ℕ) (hG : 0 < G)
    (hNB : 0 < NB) (hbpr : 0 < bpr)
    (h : blockAddr G NB bpr bc br (decR G NB t1) (decC G NB t1) =
      blockAddr G NB bpr bc br (decR G NB t2) (decC G NB t2)) : t1 = t2 := by
  have hc1 : decC G NB t1 < NB * G := by
    have ha : decJ G NB t1 < NB := Nat.mod_lt _ hNB
    have hb : decJJ G t1 < G := Nat.mod_lt _ hG
    unfold decC
    calc decJ G NB t1 * G + decJJ G t1 < decJ G NB t1 * G + G := by omega
      _ = (decJ G NB t1 + 1) * G := by ring
      _ ≤ NB * G := Nat.mul_le_mul_right G (by omega)
  have hc2 : decC G NB t2 < NB * G := by
    have ha : decJ G NB t2 < NB := Nat.mod_lt _ hNB
    have hb : decJJ G t2 < G := Nat.mod_lt _ hG
    unfold decC
    calc decJ G NB t2 * G + decJJ G t2 < decJ G NB t2 * G + G := by omega
      _ = (decJ G NB t2 + 1) * G := by ring
      _ ≤ NB * G := Nat.mul_le_mul_right G (by omega)
  have hM : NB * G ≤ NB * G * bpr := by
    calc NB * G = NB * G * 1 := by ring
      _ ≤ NB * G * bpr := Nat.mul_le_mul_left (NB * G) hbpr
  rw [blockAddr_decompose, blockAddr_decompose] at h
  have h2 : decR G NB t1 * (NB * G * bpr) + decC G NB t1 =
      decR G NB t2 * (NB * G * bpr) + decC G NB t2 := Nat.add_left_cancel h
  obtain ⟨hr, hc⟩ := mul_add_inj (NB * G * bpr) _ _ _ _
    (lt_of_lt_of_le hc1 hM) (lt_of_lt_of_le hc2 hM) h2
  have hrec1 := decR_decC_recompose G NB t1
  have hrec2 := decR_decC_recompose G NB t2
  rw [← hrec1, ← hrec2, hr, hc]

/-- The block-region store holds the buffer entry at the corresponding
block address. -/
theorem storeA_lookup (G NB bpr bc br i ii j jj : ℕ)
    (buf : ℕ → ℕ → ℕ → ℕ → ℚ) (a : ℕ → ℚ) (hbpr : 0 < bpr) (hi : i < NB)
    (hii : ii < G) (hj : j < NB) (hjj : jj < G) :
    storeA G NB bpr bc br buf a
        (blockAddr G NB bpr bc br (i * G + ii) (j * G + jj)) =
      buf i j ii jj := by
  have hG : 0 < G := by omega
  have hNB : 0 < NB := by omega
  obtain ⟨e1, e2, e3, e4⟩ := tIdx_decode G NB i ii j jj hii hj hjj
  have hR : decR G NB (tIdx G NB i ii j jj) = i * G + ii := by
    unfold decR
    rw [e1, e2]
  have hC : decC G NB (tIdx G NB i ii j jj) = j * G + jj := by
    unfold decC
    rw [e3, e4]
  have hmem : (blockAddr G NB bpr bc br (i * G + ii) (j * G + jj),
      buf i j ii jj) ∈
      (List.range (NB * G * (NB * G))).map fun t =>
        (blockAddr G NB bpr bc br (decR G NB t) (decC G NB t),
          buf (decI G NB t) (decJ G NB t) (decII G NB t) (decJJ G t)) := by
    refine List.mem_map.mpr ⟨tIdx G NB i ii j jj,
      List.mem_range.mpr (tIdx_lt G NB i ii j jj hi hii hj hjj), ?_⟩
    rw [hR, hC, e1, e2, e3, e4]
  have hnd : ((((List.range (NB * G * (NB * G))).map fun t =>
      (blockAddr G NB bpr bc br (decR G NB t) (decC G NB t),
        buf (decI G NB t) (decJ G NB t) (decII G NB t) (decJJ G t))).map
        Prod.fst)).Nodup := by
    rw [List.map_map]
    refine List.Nodup.map_on ?_ (List.nodup_range _)
    intro t1 _ t2 _ hkey
    exact storeA_key_inj G NB bpr bc br t1 t2 hG hNB hbpr hkey
  exact writeAll_eq_of_mem _ a _ hnd hmem

/-! ### The output stores of kernel `lu` -/

/-- The three output stores at the end of kernel `lu`: the final local
buffer is written back to the block region of `a`, transposed to
`a_block_trans`, and densely to `a_block` (in the source's argument order
`a`, `a_block_trans`, `a_block`). -/
def lu_store (G NB bpr : ℕ) (a a_block_trans a_block : ℕ → ℚ)
    (block_col block_row : ℕ) (buf : ℕ → ℕ → ℕ → ℕ → ℚ) :
    (ℕ → ℚ) × (ℕ → ℚ) × (ℕ → ℚ) :=
  (storeA G NB bpr block_col block_row buf a,
   storeFlatTrans G NB buf a_block_trans,
   storeFlat G NB buf a_block)

/-- C5: when kernel `lu` completes, its three outputs agree: the
BLOCK_SIZE x BLOCK_SIZE block region written back into the matrix buffer
`a` holds the same values as `a_block`, and `a_block_trans` holds the
element-wise transpose of `a_block`
(`a_block_trans[r * BLOCK_SIZE + c] = a_block[c * BLOCK_SIZE + r]`), since
all three stores are taken from the same final local buffer. -/
theorem lu_store_outputs_agree (G NB bpr bc br i ii j jj : ℕ)
    (a abt ab : ℕ → ℚ) (buf : ℕ → ℕ → ℕ → ℕ → ℚ) (hbpr : 0 < bpr)
    (hi : i < NB) (hii : ii < G) (hj : j < NB) (hjj : jj < G) :
    (lu_store G NB bpr a abt ab bc br buf).1
        (blockAddr G NB bpr bc br (i * G + ii) (j * G + jj)) =
      (lu_store G NB bpr a abt ab bc br buf).2.2
        ((i * G + ii) * (NB * G) + (j * G + jj)) ∧
    (lu_store G NB bpr a abt ab bc br buf).2.1
        ((i * G + ii) * (NB * G) + (j * G + jj)) =
      (lu_store G NB bpr a abt ab bc br buf).2.2
        ((j * G + jj) * (NB * G) + (i * G + ii)) := by
  constructor
  · rw [show (lu_store G NB bpr a abt ab bc br buf).1 =
        storeA G NB bpr bc br buf a from rfl,
      show (lu_store G NB bpr a abt ab bc br buf).2.2 =
        storeFlat G NB buf ab from rfl,
      storeA_lookup G NB bpr bc br i ii j jj buf a hbpr hi hii hj hjj,
      storeFlat_lookup G NB i ii j jj buf ab hi hii hj hjj]
  · rw [show (lu_store G NB bpr a abt ab bc br buf).2.1 =
        storeFlatTrans G NB buf abt from rfl,
      show (lu_store G NB bpr a abt ab bc br buf).2.2 =
        storeFlat G NB buf ab from rfl,
      storeFlatTrans_lookup G NB i ii j jj buf abt hi hii hj hjj,
      storeFlat_lookup G NB j jj i ii buf ab hj hjj hi hii]

/-- C5 witness: the output agreement evaluated at a concrete
configuration (GEMM_BLOCK = 2, one micro-block per block). -/
theorem lu_store_outputs_agree_witness :
    (lu_store 2 1 1 (fun _ => 0) (fun _ => 0) (fun _ => 0) 0 0
        (fun i j ii jj => (i : ℚ) + 10 * j + 100 * ii + 1000 * jj)).1
        (blockAddr 2 1 1 0 0 (0 * 2 + 1) (0 * 2 + 0)) =
      (lu_store 2 1 1 (fun _ => 0) (fun _ => 0) (fun _ => 0) 0 0
        (fun i j ii jj => (i : ℚ) + 10 * j + 100 * ii + 1000 * jj)).2.2
        ((0 * 2 + 1) * (1 * 2) + (0 * 2 + 0)) ∧
    (lu_store 2 1 1 (fun _ => 0) (fun _ => 0) (fun _ => 0) 0 0
        (fun i j ii jj => (i : ℚ) + 10 * j + 100 * ii + 1000 * jj)).2.1
        ((0 * 2 + 1) * (1 * 2) + (0 * 2 + 0)) =
      (lu_store 2 1 1 (fun _ => 0) (fun _ => 0) (fun _ => 0) 0 0
        (fun i j ii jj => (i : ℚ) + 10 * j + 100 * ii + 1000 * jj)).2.2
        ((0 * 2 + 0) * (1 * 2) + (0 * 2 + 1)) :=
  lu_store_outputs_agree 2 1 1 0 0 0 1 0 0 (fun _ => 0) (fun _ => 0)
    (fun _ => 0) (fun i j ii jj => (i : ℚ) + 10 * j + 100 * ii + 1000 * jj)
    (by omega) (by omega) (by omega) (by omega) (by omega)

/-! ### The trailing-submatrix updater `inner_update_mm` -/

/-- The load loops of `inner_update_mm` for `top_global_buffer` and
`left_global_buffer`: dense BLOCK_SIZE x BLOCK_SIZE layout,
`buffer[i][j][ii][jj] = src[(i*GEMM_BLOCK + ii) * BLOCK_SIZE + j*GEMM_BLOCK + jj]`. -/
def loadDense (G NB : ℕ) (src : ℕ → ℚ) : ℕ → ℕ → ℕ → ℕ → ℚ :=
  fun i j ii jj => src ((i * G + ii) * (NB * G) + (j * G + jj))

/-- One iteration of the flattened update loop of `inner_update_mm`
(counter `c`): decode `mcol`, `row`, `curr_col`, then add the
rank-GEMM_BLOCK product of micro-tiles
`left_buffer[mcol][row]` (transposed factor) and
`top_buffer[mcol][curr_col]` to micro-tile `(row, curr_col)` of the local
block buffer. -/
def innerStep (G NB : ℕ) (left_buffer top_buffer : ℕ → ℕ → ℕ → ℕ → ℚ)
    (buf : ℕ → ℕ → ℕ → ℕ → ℚ) (c : ℕ) : ℕ → ℕ → ℕ → ℕ → ℚ :=
  let mcol := c / (NB * NB)
  let row := c / NB &&& (NB - 1)
  let curr_col := c &&& (NB - 1)
  fun p q ii jj =>
    if p = row ∧ q = curr_col ∧ ii < G ∧ jj < G then
      buf p q ii jj +
        ∑ k ∈ Finset.range G,
          left_buffer mcol row k ii * top_buffer mcol curr_col k jj
    else buf p q ii jj

/-- The whole update loop of `inner_update_mm`: `c` iterates over
`(BLOCK_SIZE/GEMM_BLOCK)^3` steps, visiting each micro-tile once per
`mcol`. -/
def innerCompute (G NB : ℕ) (left_buffer top_buffer buf0 : ℕ → ℕ → ℕ → ℕ → ℚ) :
    ℕ → ℕ → ℕ → ℕ → ℚ :=
  (List.range (NB * NB * NB)).foldl (innerStep G NB left_buffer top_buffer) buf0

/-- Kernel `inner_update_mm`: load the addressed block of `a` and the dense
left/top operand buffers, run the update loop, and store the block back to
`a`.  The kernel writes only `a`; the returned triple carries the untouched
operand buffers to make its writable interface explicit. -/
def inner_update_mm (G NB bpr : ℕ)
    (a left_global_buffer top_global_buffer : ℕ → ℚ)
    (block_col block_row : ℕ) : (ℕ → ℚ) × (ℕ → ℚ) × (ℕ → ℚ) :=
  let a_buffer := loadBlock G NB bpr block_col block_row a
  let top_buffer := loadDense G NB top_global_buffer
  let left_buffer := loadDense G NB left_global_buffer
  let buf := innerCompute G NB left_buffer top_buffer a_buffer
  (storeA G NB bpr block_col block_row buf a,
   left_global_buffer, top_global_buffer)

/-- Partial-run invariant of the update loop: after `t` iterations a
micro-tile entry holds its initial value plus the contributions of the
counters already processed that address it. -/
theorem innerCompute_upto (m G NB : ℕ) (hNB : NB = 2 ^ m)
    (lb tb buf0 : ℕ → ℕ → ℕ → ℕ → ℚ) (t p q ii jj : ℕ) (hp : p < NB)
    (hq : q < NB) (hii : ii < G) (hjj : jj < G) :
    (List.range t).foldl (innerStep G NB lb tb) buf0 p q ii jj =
      buf0 p q ii jj +
        ∑ c ∈ Finset.filter (fun c => c / NB % NB = p ∧ c % NB = q)
            (Finset.range t),
          ∑ k ∈ Finset.range G, lb (c / (NB * NB)) p k ii *
            tb (c / (NB * NB)) q k jj := by
  induction t with
  | zero => simp
  | succ t ih =>
    rw [List.range_succ, List.foldl_append]
    simp only [List.foldl_cons, List.foldl_nil]
    have htr : t / NB &&& (NB - 1) = t / NB % NB := by
      rw [hNB, and_mask_eq_mod]
    have htc : t &&& (NB - 1) = t % NB := by
      rw [hNB, and_mask_eq_mod]
    by_cases hc : t / NB % NB = p ∧ t % NB = q
    · have hcond : p = t / NB &&& (NB - 1) ∧ q = (t &&& (NB - 1)) ∧
          ii < G ∧ jj < G := by
        refine ⟨?_, ?_, hii, hjj⟩
        · rw [htr]
          exact hc.1.symm
        · rw [htc]
          exact hc.2.symm
      simp only [innerStep]
      rw [if_pos hcond, Finset.range_succ, Finset.filter_insert, if_pos hc,
        Finset.sum_insert (by simp), htr, htc, hc.1, hc.2, ih]
      ring
    · have hcond : ¬(p = t / NB &&& (NB - 1) ∧ q = (t &&& (NB - 1)) ∧
          ii < G ∧ jj < G) := by
        rw [htr, htc]
        intro hcon
        exact hc ⟨hcon.1.symm, hcon.2.1.symm⟩
      simp only [innerStep]
      rw [if_neg hcond, Finset.range_succ, Finset.filter_insert, if_neg hc]
      exact ih

/-- Closed form of the update loop: each micro-tile entry receives the
rank-BLOCK_SIZE accumulation, GEMM_BLOCK products per micro-column. -/
theorem innerCompute_closed (m G NB : ℕ) (hNB : NB = 2 ^ m)
    (lb tb buf0 : ℕ → ℕ → ℕ → ℕ → ℚ) (p q ii jj : ℕ) (hp : p < NB)
    (hq : q < NB) (hii : ii < G) (hjj : jj < G) :
    innerCompute G NB lb tb buf0 p q ii jj =
      buf0 p q ii jj +
        ∑ mcol ∈ Finset.range NB, ∑ k ∈ Finset.range G,
          lb mcol p k ii * tb mcol q k jj := by
  have hNBpos : 0 < NB := by omega
  have hpq : p * NB + q < NB * NB := by
    calc p * NB + q < p * NB + NB := by omega
      _ = (p + 1) * NB := by ring
      _ ≤ NB * NB := Nat.mul_le_mul_right NB (by omega)
  unfold innerCompute
  rw [innerCompute_upto m G NB hNB lb tb buf0 (NB * NB * NB) p q ii jj
    hp hq hii hjj]
  congr 1
  have himg : Finset.filter (fun c => c / NB % NB = p ∧ c % NB = q)
      (Finset.range (NB * NB * NB)) =
      Finset.image (fun mc => mc * (NB * NB) + (p * NB + q))
        (Finset.range NB) := by
    ext c
    simp only [Finset.mem_filter, Finset.mem_range, Finset.mem_image]
    constructor
    · rintro ⟨hlt, h1, h2⟩
      refine ⟨c / (NB * NB), Nat.div_lt_of_lt_mul hlt, ?_⟩
      have e1 : c % (NB * NB) / NB = c / NB % NB :=
        Nat.mod_mul_right_div_self c NB NB
      have e2 : c % (NB * NB) % NB = c % NB := Nat.mod_mod_of_dvd c ⟨NB, rfl⟩
      have hmod : c % (NB * NB) = NB * p + q := by
        have hdm2 := Nat.div_add_mod (c % (NB * NB)) NB
        rw [e1, h1, e2, h2] at hdm2
        exact hdm2.symm
      have hdm := Nat.div_add_mod c (NB * NB)
      rw [hmod] at hdm
      conv_rhs => rw [← hdm]
      ring
    · rintro ⟨mc, hmc, rfl⟩
      have hsplit : mc * (NB * NB) + (p * NB + q) = NB * (mc * NB + p) + q := by
        ring
      refine ⟨?_, ?_, ?_⟩
      · have h2 : (mc + 1) * (NB * NB) ≤ NB * (NB * NB) :=
          Nat.mul_le_mul_right (NB * NB) (by omega)
        calc mc * (NB * NB) + (p * NB + q)
            < mc * (NB * NB) + NB * NB := Nat.add_lt_add_left hpq _
          _ = (mc + 1) * (NB * NB) := by ring
          _ ≤ NB * (NB * NB) := h2
          _ = NB * NB * NB := by ring
      · rw [hsplit, div_mul_add NB _ _ hNBpos hq,
          show mc * NB + p = NB * mc + p by ring, mod_mul_add NB mc p hp]
      · rw [hsplit, mod_mul_add NB _ _ hq]
  rw [himg, Finset.sum_image (fun x _ y _ hxy =>
    Nat.eq_of_mul_eq_mul_right (Nat.mul_pos hNBpos hNBpos)
      (Nat.add_right_cancel hxy))]
  refine Finset.sum_congr rfl ?_
  intro mc hmc
  have hsplit2 : mc * (NB * NB) + (p * NB + q) =
      NB * NB * mc + (p * NB + q) := by ring
  have hdiv : (mc * (NB * NB) + (p * NB + q)) / (NB * NB) = mc := by
    rw [hsplit2, div_mul_add _ _ _ (Nat.mul_pos hNBpos hNBpos) hpq]
  rw [hdiv]

/-- C2 counterexample: the claim's subtraction
`A[i][j] -= L_col[i] * U_row[j]` fails on the code: with the left and top
operand buffers holding 1 and the block holding 0, the kernel stores
`0 + 1 * 1 = 1`, not `0 - 1 * 1 = -1`: the source accumulates with an
addition (the sign is already folded into the propagated factors by the
negated-reciprocal pivot convention). -/
theorem inner_update_mm_subtract_counterexample :
    ¬((inner_update_mm 1 1 1 (fun _ => 0) (fun _ => 1) (fun _ => 1) 0 0).1 0 =
        (fun _ => (0 : ℚ)) 0 -
          ∑ mcol ∈ Finset.range 1, ∑ k ∈ Finset.range 1,
            (fun _ => (1 : ℚ)) ((mcol * 1 + k) * (1 * 1) + (0 * 1 + 0)) *
              (fun _ => (1 : ℚ)) ((mcol * 1 + k) * (1 * 1) + (0 * 1 + 0))) := by
  norm_num [inner_update_mm, innerCompute, innerStep, loadBlock, loadDense,
    storeA, writeAll, blockAddr, decR, decC, decI, decII, decJ, decJJ,
    List.range_succ, Function.update]

/-- C2 amended: for every trailing block, `inner_update_mm` replaces each
element of the addressed block of `a` by
`A[i][j] += L_col[i] * U_row[j]` accumulated over all BLOCK_SIZE
rows/columns of the eliminated pivot block (GEMM_BLOCK products for each of
the BLOCK_SIZE/GEMM_BLOCK micro-columns), where `L_col` is the column-block
output of the column propagator and `U_row` the row-block output of the row
propagator; the operand buffers are left unchanged. -/
theorem inner_update_mm_adds (m G NB bpr bc br p q ii jj : ℕ)
    (a lg tg : ℕ → ℚ) (hNB : NB = 2 ^ m) (hbpr : 0 < bpr) (hp : p < NB)
    (hq : q < NB) (hii : ii < G) (hjj : jj < G) :
    (inner_update_mm G NB bpr a lg tg bc br).1
        (blockAddr G NB bpr bc br (p * G + ii) (q * G + jj)) =
      a (blockAddr G NB bpr bc br (p * G + ii) (q * G + jj)) +
        ∑ mcol ∈ Finset.range NB, ∑ k ∈ Finset.range G,
          lg ((mcol * G + k) * (NB * G) + (p * G + ii)) *
            tg ((mcol * G + k) * (NB * G) + (q * G + jj)) ∧
    (inner_update_mm G NB bpr a lg tg bc br).2.1 = lg ∧
    (inner_update_mm G NB bpr a lg tg bc br).2.2 = tg := by
  refine ⟨?_, rfl, rfl⟩
  have h1 : (inner_update_mm G NB bpr a lg tg bc br).1 =
      storeA G NB bpr bc br
        (innerCompute G NB (loadDense G NB lg) (loadDense G NB tg)
          (loadBlock G NB bpr bc br a)) a := rfl
  rw [h1, storeA_lookup G NB bpr bc br p ii q jj _ a hbpr hp hii hq hjj,
    innerCompute_closed m G NB hNB _ _ _ p q ii jj hp hq hii hjj]
  rfl

/-- C2 amended witness: the additive accumulation evaluated at the smallest
configuration. -/
theorem inner_update_mm_adds_witness :
    (inner_update_mm 1 1 1 (fun _ => 0) (fun _ => 1) (fun _ => 1) 0 0).1
        (blockAddr 1 1 1 0 0 (0 * 1 + 0) (0 * 1 + 0)) =
      (fun _ => (0 : ℚ)) (blockAddr 1 1 1 0 0 (0 * 1 + 0) (0 * 1 + 0)) +
        ∑ mcol ∈ Finset.range 1, ∑ k ∈ Finset.range 1,
          (fun _ => (1 : ℚ)) ((mcol * 1 + k) * (1 * 1) + (0 * 1 + 0)) *
            (fun _ => (1 : ℚ)) ((mcol * 1 + k) * (1 * 1) + (0 * 1 + 0)) :=
  (inner_update_mm_adds 0 1 1 1 0 0 0 0 0 0 (fun _ => 0) (fun _ => 1)
    (fun _ => 1) rfl (by omega) (by omega) (by omega) (by omega)
    (by omega)).1

/-! ### Replication of the trailing update -/

/-- Applying `inner_update_mm` to matrix `a` for trailing block `b`
(block row `b.1`, block column `b.2`), with the per-row column-propagator
output `leftBufs b.1` and per-column row-propagator output `topBufs b.2`
as operands. -/
def innerAt (G NB bpr : ℕ) (leftBufs topBufs : ℕ → ℕ → ℚ) (a : ℕ → ℚ)
    (b : ℕ × ℕ) : ℕ → ℚ :=
  (inner_update_mm G NB bpr a (leftBufs b.1) (topBufs b.2) b.2 b.1).1

/-- One trailing-block update acts additively on each address: the new
value is the old value plus an increment that does not depend on the
matrix contents (it is the value the update writes on the zero matrix).
Consequence of the update reading each block cell only once and adding a
product of the read-only operand buffers. -/
theorem innerAt_add (m G NB bpr : ℕ) (lB tB : ℕ → ℕ → ℚ) (a : ℕ → ℚ)
    (b : ℕ × ℕ) (x : ℕ) (hNB : NB = 2 ^ m) (hG : 0 < G) (hbpr : 0 < bpr) :
    innerAt G NB bpr lB tB a b x =
      a x + innerAt G NB bpr lB tB (fun _ => 0) b x := by
  have hNBpos : 0 < NB := by
    rw [hNB]
    exact Nat.pow_pos (by omega)
  by_cases hx : x ∈ (List.range (NB * G * (NB * G))).map fun t =>
      blockAddr G NB bpr b.2 b.1 (decR G NB t) (decC G NB t)
  · obtain ⟨t, htmem, htkey⟩ := List.mem_map.mp hx
    have htlt : t < NB * G * (NB * G) := List.mem_range.mp htmem
    have hI : decI G NB t < NB := by
      unfold decI
      apply Nat.div_lt_of_lt_mul
      calc t < NB * G * (NB * G) := htlt
        _ = G * (NB * G) * NB := by ring
    have hII : decII G NB t < G := Nat.mod_lt _ hG
    have hJ : decJ G NB t < NB := Nat.mod_lt _ hNBpos
    have hJJ : decJJ G t < G := Nat.mod_lt _ hG
    have hval : ∀ a0 : ℕ → ℚ, innerAt G NB bpr lB tB a0 b x =
        a0 x +
          ∑ mcol ∈ Finset.range NB, ∑ k ∈ Finset.range G,
            loadDense G NB (lB b.1) mcol (decI G NB t) k (decII G NB t) *
              loadDense G NB (tB b.2) mcol (decJ G NB t) k (decJJ G t) := by
      intro a0
      have e : innerAt G NB bpr lB tB a0 b =
          storeA G NB bpr b.2 b.1
            (innerCompute G NB (loadDense G NB (lB b.1))
              (loadDense G NB (tB b.2)) (loadBlock G NB bpr b.2 b.1 a0)) a0 :=
        rfl
      rw [e, ← htkey]
      have hkeyform : blockAddr G NB bpr b.2 b.1 (decR G NB t) (decC G NB t) =
          blockAddr G NB bpr b.2 b.1
            (decI G NB t * G + decII G NB t) (decJ G NB t * G + decJJ G t) :=
        rfl
      rw [hkeyform,
        storeA_lookup G NB bpr b.2 b.1 (decI G NB t) (decII G NB t)
          (decJ G NB t) (decJJ G t) _ a0 hbpr hI hII hJ hJJ,
        innerCompute_closed m G NB hNB _ _ _ (decI G NB t) (decJ G NB t)
          (decII G NB t) (decJJ G t) hI hJ hII hJJ]
      rfl
    rw [hval a, hval (fun _ => 0)]
    ring
  · have hframe : ∀ a0 : ℕ → ℚ, innerAt G NB bpr lB tB a0 b x = a0 x := by
      intro a0
      have e : innerAt G NB bpr lB tB a0 b =
          storeA G NB bpr b.2 b.1
            (innerCompute G NB (loadDense G NB (lB b.1))
              (loadDense G NB (tB b.2)) (loadBlock G NB bpr b.2 b.1 a0)) a0 :=
        rfl
      rw [e]
      unfold storeA
      apply writeAll_eq_of_not_mem
      rw [List.map_map]
      exact hx
    rw [hframe a, hframe (fun _ => 0)]
    ring

/-- Sequential execution of the trailing update over a work list. -/
def runSchedule (G NB bpr : ℕ) (leftBufs topBufs : ℕ → ℕ → ℚ)
    (L : List (ℕ × ℕ)) (a : ℕ → ℚ) : ℕ → ℚ :=
  L.foldl (fun acc b => innerAt G NB bpr leftBufs topBufs acc b) a

/-- A schedule adds, at each address, the sum of the per-block
increments. -/
theorem runSchedule_add (m G NB bpr : ℕ) (lB tB : ℕ → ℕ → ℚ)
    (L : List (ℕ × ℕ)) (a : ℕ → ℚ) (x : ℕ) (hNB : NB = 2 ^ m) (hG : 0 < G)
    (hbpr : 0 < bpr) :
    runSchedule G NB bpr lB tB L a x =
      a x +
        (L.map (fun b => innerAt G NB bpr lB tB (fun _ => 0) b x)).sum := by
  induction L generalizing a with
  | nil => simp [runSchedule]
  | cons b L ih =>
    have e : runSchedule G NB bpr lB tB (b :: L) a =
        runSchedule G NB bpr lB tB L (innerAt G NB bpr lB tB a b) := rfl
    rw [e, ih (innerAt G NB bpr lB tB a b),
      innerAt_add m G NB bpr lB tB a b x hNB hG hbpr, List.map_cons,
      List.sum_cons]
    ring

/-- The trailing blocks of diagonal step k: all (i, j) with
k < i < blocks_per_row and k < j < blocks_per_row. -/
def trailingBlocks (bpr k : ℕ) : List (ℕ × ℕ) :=
  ((List.range bpr).filter (fun i => decide (k < i))).flatMap fun i =>
    ((List.range bpr).filter (fun j => decide (k < j))).map fun j => (i, j)

/-- Modelled from the spec: the replication scheduler.  The device source
realizes replication by generating `num_replications` textual copies of
`inner_update_mm` (the `PY_CODE_GEN` block around that kernel); the
host-side scheduler that statically partitions the trailing blocks of a
step among the R kernel copies is not part of the source under
verification.  Following the spec, a replicated execution is a partition
of the trailing-block list into one work list per worker; the workers
share no mutable state and write disjoint block regions, so the device
state after the step is the sequential execution of the concatenated work
lists. -/
def runWorkers (G NB bpr : ℕ) (leftBufs topBufs : ℕ → ℕ → ℚ)
    (partition : List (List (ℕ × ℕ))) (a : ℕ → ℚ) : ℕ → ℚ :=
  runSchedule G NB bpr leftBufs topBufs partition.flatten a

/-- C6: the factorized matrix does not depend on the replication factor:
for any two partitions of the trailing blocks of step k — in particular
partitions into R1 and into R2 work lists — the trailing update produces
identical matrix contents.  Each worker executes the same update function
on its blocks and each block's update adds a matrix-independent increment
on a region disjoint from all other blocks, so only the multiset of
scheduled blocks matters. -/
theorem inner_update_replication_equiv (m G NB bpr k : ℕ)
    (lB tB : ℕ → ℕ → ℚ) (a : ℕ → ℚ) (P1 P2 : List (List (ℕ × ℕ)))
    (hNB : NB = 2 ^ m) (hG : 0 < G) (hbpr : 0 < bpr)
    (h1 : P1.flatten.Perm (trailingBlocks bpr k))
    (h2 : P2.flatten.Perm (trailingBlocks bpr k)) :
    runWorkers G NB bpr lB tB P1 a = runWorkers G NB bpr lB tB P2 a := by
  funext x
  unfold runWorkers
  rw [runSchedule_add m G NB bpr lB tB P1.flatten a x hNB hG hbpr,
    runSchedule_add m G NB bpr lB tB P2.flatten a x hNB hG hbpr]
  congr 1
  exact List.Perm.sum_eq (List.Perm.map _ (h1.trans h2.symm))

/-- C6 witness: one worker versus two workers on the single trailing block
of step 0 with two block rows. -/
theorem inner_update_replication_equiv_witness :
    runWorkers 1 1 2 (fun _ _ => 1) (fun _ _ => 1) [[(1, 1)]] (fun _ => 0) =
      runWorkers 1 1 2 (fun _ _ => 1) (fun _ _ => 1) [[], [(1, 1)]]
        (fun _ => 0) :=
  inner_update_replication_equiv 0 1 1 2 0 (fun _ _ => 1) (fun _ _ => 1)
    (fun _ => 0) [[(1, 1)]] [[], [(1, 1)]] rfl (by omega) (by omega)
    (by decide) (by decide)

/-! ### The host harness: benchmark setup and execution -/

/-- Abstract outcomes of the external collaborators of one benchmark run:
whether parameter parsing and device setup succeed, the flags of the
parsed settings, and the results of the benchmark's virtual
`checkInputParameters` and `validateOutput` methods. -/
structure BenchConfig where
  parseOk : Bool
  deviceOk : Bool
  testOnly : Bool
  skipValidation : Bool
  checkInputParameters : Bool
  validateOutput : Bool

/-- Benchmark work performed by the harness, recorded as events. -/
inductive BenchEvent where
  | inputCheck
  | generateData
  | executeKernel
  | validateData
deriving DecidableEq

/-- `HpccFpgaBenchmark::setupBenchmark`: parse the parameters, select the
device and build the program (skipped in test-only mode), then run the
input-parameter check; any failure is caught and turns into `success =
false`.  Returns the value stored into `benchmark_setup_succeeded`
together with the performed events.  The check runs only if parsing and
device setup succeed, and runs exactly once. -/
def setupBenchmark (cfg : BenchConfig) : Bool × List BenchEvent :=
  if cfg.parseOk && (cfg.testOnly || cfg.deviceOk) then
    (cfg.checkInputParameters, [BenchEvent.inputCheck])
  else (false, [])

/-- `HpccFpgaBenchmark::executeBenchmark`: refuses to run unless
`benchmark_setup_succeeded` is set; in test-only mode succeeds without
work; otherwise generates input data, executes the kernel, and validates
the output unless validation is skipped (in which case the `validated`
member stays false and is returned). -/
def executeBenchmark (cfg : BenchConfig) (setup_succeeded : Bool) :
    Bool × List BenchEvent :=
  if !setup_succeeded then (false, [])
  else if cfg.testOnly then (true, [])
  else
    (!cfg.skipValidation && cfg.validateOutput,
      [BenchEvent.generateData, BenchEvent.executeKernel] ++
        (if !cfg.skipValidation then [BenchEvent.validateData] else []))

/-- A sequence of `n` `executeBenchmark` calls after one setup; the
`benchmark_setup_succeeded` flag is written only by `setupBenchmark`, so
every call sees the same flag. -/
def execCalls (cfg : BenchConfig) (setup_succeeded : Bool) :
    ℕ → List (Bool × List BenchEvent)
  | 0 => []
  | n + 1 => executeBenchmark cfg setup_succeeded ::
      execCalls cfg setup_succeeded n

/-- C8: a configuration-precondition violation is detected at most once,
during setup, before any benchmark work, and is terminal: when the
input-parameter check fails, `setupBenchmark` returns false, and every
subsequent `executeBenchmark` call returns false immediately without
generating data, executing the kernel, or validating output; the check is
never retried. -/
theorem setup_check_failure_terminal (cfg : BenchConfig) (n : ℕ)
    (h : cfg.checkInputParameters = false) :
    (setupBenchmark cfg).1 = false ∧
    ((setupBenchmark cfg).2.count BenchEvent.inputCheck ≤ 1) ∧
    execCalls cfg (setupBenchmark cfg).1 n = List.replicate n (false, []) := by
  have h1 : (setupBenchmark cfg).1 = false := by
    unfold setupBenchmark
    split
    · exact h
    · rfl
  refine ⟨h1, ?_, ?_⟩
  · unfold setupBenchmark
    split
    · show List.count BenchEvent.inputCheck [BenchEvent.inputCheck] ≤ 1
      decide
    · show List.count BenchEvent.inputCheck [] ≤ 1
      decide
  · rw [h1]
    induction n with
    | zero => rfl
    | succ n ih =>
      rw [List.replicate_succ]
      show executeBenchmark cfg false :: execCalls cfg false n = _
      rw [ih]
      rfl

/-- C8 witness: a failing check with otherwise successful setup is
terminal across two subsequent execution attempts. -/
theorem setup_check_failure_terminal_witness :
    (setupBenchmark ⟨true, true, false, false, false, true⟩).1 = false ∧
    ((setupBenchmark ⟨true, true, false, false, false, true⟩).2.count
      BenchEvent.inputCheck ≤ 1) ∧
    execCalls ⟨true, true, false, false, false, true⟩
        (setupBenchmark ⟨true, true, false, false, false, true⟩).1 2 =
      List.replicate 2 (false, []) :=
  setup_check_failure_terminal ⟨true, true, false, false, false, true⟩ 2 rfl

end LUFact
